import Mathlib

/-!
Inheritance extractor: embedding of `src/inheritance_extractor.cpp`

A shallow embedding of the `InheritanceVisitor` of the inheritance extractor:
the accumulated graph (`std::set<std::string> classes`,
`std::vector<InheritanceEdge> edges`), the visitor callback
`VisitCXXRecordDecl`, and the DOT printer `printDOT`.

The Clang AST is an external collaborator.  A `CXXRecordDecl` is modelled by
exactly the observations the visitor makes of it: whether it is a definition,
whether it describes a class template, its identifier (if any) and its list
of base specifiers; a base specifier by the record declaration its type
resolves to (if any) and its access specifier.
-/

namespace CodeAnalyzer

/-! ## `std::string` ordering and `std::set<std::string>` -/

/-- Lexicographic comparison of two character sequences, the way
`std::string::operator<` compares: position by position, the first differing
character decides, and a proper prefix is smaller.  (Characters are compared
by code point, which on valid UTF-8 coincides with byte order.) -/
def charsLess : List Char → List Char → Bool
  | [], [] => false
  | [], _ :: _ => true
  | _ :: _, [] => false
  | a :: as, b :: bs =>
    if a.toNat < b.toNat then true
    else if b.toNat < a.toNat then false
    else charsLess as bs

/-- The comparator `std::less<std::string>` of the class-name set. -/
def stringLess (a b : String) : Bool :=
  charsLess a.data b.data

/-- Insertion into the sorted, duplicate-free key sequence of a `std::set`:
the key is placed before the first larger key, and dropped when an equivalent
key (neither smaller nor larger) is already there. -/
def insertKey (x : String) : List String → List String
  | [] => [x]
  | y :: ys =>
    if stringLess x y then x :: y :: ys
    else if stringLess y x then y :: insertKey x ys
    else y :: ys

theorem charsLess_iff (a b : List Char) : charsLess a b = true ↔ a < b := by
  induction a generalizing b with
  | nil =>
    cases b with
    | nil => simp [charsLess]
    | cons b bs => simpa [charsLess] using List.nil_lt_cons b bs
  | cons a as ih =>
    cases b with
    | nil =>
      simp only [charsLess, Bool.false_eq_true, false_iff]
      exact not_lt_of_lt (List.nil_lt_cons a as)
    | cons b bs =>
      have hlt : a.toNat < b.toNat ↔ a < b := by
        rw [Char.lt_iff_val_lt_val]; rfl
      have hgt : b.toNat < a.toNat ↔ b < a := by
        rw [Char.lt_iff_val_lt_val]; rfl
      simp only [charsLess]
      by_cases h1 : a < b
      · rw [if_pos (hlt.mpr h1)]
        exact iff_of_true rfl (List.Lex.rel h1)
      · have h3 : ¬ a.toNat < b.toNat := fun h => h1 (hlt.mp h)
        rw [if_neg h3]
        by_cases h2 : b < a
        · rw [if_pos (hgt.mpr h2)]
          refine iff_of_false (by simp) ?_
          intro h
          cases h with
          | cons h => exact lt_irrefl _ h2
          | rel h => exact h1 h
        · have h4 : ¬ b.toNat < a.toNat := fun h => h2 (hgt.mp h)
          have heq : a = b := le_antisymm (not_lt.mp h2) (not_lt.mp h1)
          subst heq
          rw [if_neg h4, ih]
          exact List.Lex.cons_iff.symm

/-- The comparator decides the lexicographic order on strings. -/
theorem stringLess_iff (a b : String) : stringLess a b = true ↔ a < b := by
  unfold stringLess
  rw [charsLess_iff, String.lt_iff_toList_lt]
  rfl

theorem mem_insertKey (x : String) (l : List String) (n : String) :
    n ∈ insertKey x l ↔ n = x ∨ n ∈ l := by
  induction l with
  | nil => simp [insertKey]
  | cons y ys ih =>
    unfold insertKey
    by_cases h1 : stringLess x y = true
    · simp [h1]
    · rw [if_neg h1]
      by_cases h2 : stringLess y x = true
      · rw [if_pos h2]
        simp only [List.mem_cons, ih]
        tauto
      · rw [if_neg h2]
        have hxy : x = y := by
          rw [stringLess_iff] at h1 h2
          exact le_antisymm (not_lt.mp h2) (not_lt.mp h1)
        subst hxy
        simp

theorem sorted_insertKey (x : String) (l : List String)
    (h : l.Sorted (fun a b => a < b)) : (insertKey x l).Sorted (fun a b => a < b) := by
  induction l with
  | nil => simp [insertKey]
  | cons y ys ih =>
    have hy := List.sorted_cons.mp h
    unfold insertKey
    by_cases h1 : stringLess x y = true
    · rw [if_pos h1]
      have hxy : x < y := (stringLess_iff x y).mp h1
      refine List.sorted_cons.mpr ⟨?_, h⟩
      intro b hb
      rcases List.mem_cons.mp hb with rfl | hb
      · exact hxy
      · exact lt_trans hxy (hy.1 b hb)
    · rw [if_neg h1]
      by_cases h2 : stringLess y x = true
      · rw [if_pos h2]
        refine List.sorted_cons.mpr ⟨?_, ih hy.2⟩
        intro b hb
        rcases (mem_insertKey x ys b).mp hb with rfl | hb
        · exact (stringLess_iff y b).mp h2
        · exact hy.1 b hb
      · rw [if_neg h2]
        exact h

/-- The class-name container `std::set<std::string>`: its keys, held in the
order in which iteration yields them, strictly increasing under the
comparator (so no key occurs twice). -/
structure StringSet where
  /-- The keys in iteration order. -/
  elems : List String
  /-- Class invariant of the ordered container. -/
  sorted : elems.Sorted (fun a b => a < b)

namespace StringSet

/-- A default-constructed, empty set. -/
def empty : StringSet := ⟨[], List.sorted_nil⟩

/-- Member function `std::set::insert`. -/
def insert (s : StringSet) (x : String) : StringSet :=
  ⟨insertKey x s.elems, sorted_insertKey x s.elems s.sorted⟩

/-- Member function `std::set::size`. -/
def size (s : StringSet) : Nat := s.elems.length

instance : Membership String StringSet := ⟨fun s x => x ∈ s.elems⟩

instance (x : String) (s : StringSet) : Decidable (x ∈ s) :=
  inferInstanceAs (Decidable (x ∈ s.elems))

end StringSet

/-! ## The graph and the observed part of the Clang AST -/

/-- One inheritance fact (`struct InheritanceEdge`). -/
structure InheritanceEdge where
  derived : String
  base : String
  accessSpecifier : String
  deriving DecidableEq, Repr

/-- Clang's `enum AccessSpecifier`. -/
inductive AccessSpecifier where
  | AS_public
  | AS_protected
  | AS_private
  | AS_none
  deriving DecidableEq, Repr

/-- The `ClassTemplateDecl` a templated record points to; the visitor only
tests the pointer against `nullptr`. -/
inductive ClassTemplateDecl where
  | mk
  deriving DecidableEq, Repr

/-- The record declaration a base type resolves to
(`baseType->getAsCXXRecordDecl()`), as far as the visitor reads it:
`getIdentifier()` is `none` for an anonymous record, and otherwise carries
the text `getNameAsString()` returns. -/
structure BaseRecordDecl where
  getIdentifier : Option String
  deriving DecidableEq, Repr

/-- A base specifier: `getAsCXXRecordDecl` is `none` when the base type does
not resolve to a record declaration (the null pointer). -/
structure CXXBaseSpecifier where
  getAsCXXRecordDecl : Option BaseRecordDecl
  getAccessSpecifier : AccessSpecifier
  deriving DecidableEq, Repr

/-- A record declaration as presented to the visitor.  `getIdentifier` is
`none` for an anonymous record and otherwise carries the text
`getNameAsString()` returns; `getDescribedClassTemplate` is `none` for the
null pointer. -/
structure CXXRecordDecl where
  isThisDeclarationADefinition : Bool
  getDescribedClassTemplate : Option ClassTemplateDecl
  getIdentifier : Option String
  bases : List CXXBaseSpecifier
  deriving DecidableEq, Repr

/-- The mutable members of `class InheritanceVisitor`: the graph. -/
structure InheritanceVisitor where
  classes : StringSet
  edges : List InheritanceEdge

namespace InheritanceVisitor

/-- A freshly constructed visitor: the empty graph. -/
def init : InheritanceVisitor := ⟨StringSet.empty, []⟩

end InheritanceVisitor

/-! ## `VisitCXXRecordDecl` -/

/-- The `switch` over `base.getAccessSpecifier()`. -/
def accessSpec : AccessSpecifier → String
  | AccessSpecifier.AS_public => "public"
  | AccessSpecifier.AS_protected => "protected"
  | AccessSpecifier.AS_private => "private"
  | _ => "private"

/-- One iteration of the loop over `decl->bases()`, for the class named
`className`. -/
def visitBase (className : String) (v : InheritanceVisitor) (base : CXXBaseSpecifier) :
    InheritanceVisitor :=
  match base.getAsCXXRecordDecl with
  | none => v
  | some baseDecl =>
    match baseDecl.getIdentifier with
    | none => v
    | some baseName =>
      { classes := v.classes.insert baseName
        edges := v.edges ++
          [{ derived := className, base := baseName,
             accessSpecifier := accessSpec base.getAccessSpecifier }] }

/-- The visitor callback.  Returns the callback's `bool` result together with
the visitor's state after the call. -/
def VisitCXXRecordDecl (v : InheritanceVisitor) (decl : CXXRecordDecl) :
    Bool × InheritanceVisitor :=
  if !decl.isThisDeclarationADefinition then (true, v)
  else if decl.getDescribedClassTemplate.isSome then (true, v)
  else
    match decl.getIdentifier with
    | none => (true, v)
    | some className =>
      (true, decl.bases.foldl (visitBase className)
        { v with classes := v.classes.insert className })

/-- The traversal driving the callback over the record declarations of a
translation unit, given in the order the parser presents them.  As in
`RecursiveASTVisitor`, a callback result of `false` stops the traversal. -/
def TraverseDecl (v : InheritanceVisitor) : List CXXRecordDecl → Bool × InheritanceVisitor
  | [] => (true, v)
  | decl :: rest =>
    match VisitCXXRecordDecl v decl with
    | (true, v1) => TraverseDecl v1 rest
    | (false, v1) => (false, v1)

/-- The graph after traversing `decls` with a freshly constructed visitor. -/
def extract (decls : List CXXRecordDecl) : InheritanceVisitor :=
  (TraverseDecl InheritanceVisitor.init decls).2

/-! ## `printDOT` -/

/-- The loop printing the node lines: appends one line per class name to the
stream. -/
def printNodes (classes : List String) (cout : String) : String :=
  classes.foldl (fun out className => out ++ "    \"" ++ className ++ "\";" ++ "\n") cout

/-- The loop printing the edge lines: appends one line per edge to the
stream. -/
def printEdges (edges : List InheritanceEdge) (cout : String) : String :=
  edges.foldl (fun out edge =>
    out ++ "    \"" ++ edge.derived ++ "\" -> \"" ++ edge.base
      ++ "\" [label=\"" ++ edge.accessSpecifier ++ "\"];" ++ "\n") cout

/-- The text `printDOT` writes to `std::cout` (`std::endl` writes a newline). -/
def printDOT (v : InheritanceVisitor) : String :=
  let cout := "" ++ "digraph InheritanceGraph \x7b" ++ "\n"
  let cout := cout ++ "    rankdir=BT;" ++ "\n"
  let cout := cout ++ "    node [shape=box, style=filled, fillcolor=lightblue];" ++ "\n"
  let cout := cout ++ "\n"
  let cout := printNodes v.classes.elems cout
  let cout := cout ++ "\n"
  let cout := printEdges v.edges cout
  cout ++ "\x7d" ++ "\n"

/-- The consumer's `HandleTranslationUnit`: traverse the translation unit with
the consumer's own, freshly constructed visitor, then print.  The result is
the text written to `std::cout`. -/
def HandleTranslationUnit (decls : List CXXRecordDecl) : String :=
  printDOT (TraverseDecl InheritanceVisitor.init decls).2

/-! ## The claims' vocabulary -/

/-- A declaration is accepted when it is a definition, does not describe a
class template, and has an identifier. -/
def accepted (d : CXXRecordDecl) : Bool :=
  d.isThisDeclarationADefinition && d.getDescribedClassTemplate.isNone && d.getIdentifier.isSome

/-- A declaration describes a class template (a generic class definition). -/
def describesTemplate (d : CXXRecordDecl) : Bool :=
  d.getDescribedClassTemplate.isSome

/-- The name a base specifier resolves to: present when its type resolves to
a record declaration that has an identifier. -/
def resolvedName (b : CXXBaseSpecifier) : Option String :=
  match b.getAsCXXRecordDecl with
  | none => none
  | some baseDecl => baseDecl.getIdentifier

/-- The edge the claims ascribe to a base specifier of the class `name`: one
edge `(name, base name, access label)` when the specifier resolves. -/
def specEdge (name : String) (b : CXXBaseSpecifier) : Option InheritanceEdge :=
  (resolvedName b).map fun baseName =>
    { derived := name, base := baseName, accessSpecifier := accessSpec b.getAccessSpecifier }

/-- The edges the claims ascribe to one declaration: none unless it is
accepted, and then one per resolvable base specifier, in declaration order. -/
def specDeclEdges (d : CXXRecordDecl) : List InheritanceEdge :=
  match d.getIdentifier with
  | none => []
  | some name => if accepted d then d.bases.filterMap (specEdge name) else []

/-- The names the claims ascribe to one declaration: none unless it is
accepted, and then its own name and the names its base specifiers resolve to. -/
def specDeclNames (d : CXXRecordDecl) : List String :=
  match d.getIdentifier with
  | none => []
  | some name => if accepted d then name :: d.bases.filterMap resolvedName else []

/-- The edge list the claims ascribe to a sequence of declarations. -/
def specEdges (decls : List CXXRecordDecl) : List InheritanceEdge :=
  decls.flatMap specDeclEdges

/-- The number of resolvable base specifiers of the accepted declarations. -/
def resolvableCount (decls : List CXXRecordDecl) : Nat :=
  ((decls.filter accepted).map fun d =>
    (d.bases.filter fun b => (resolvedName b).isSome).length).sum

/-- The node line written for a class name. -/
def nodeLine (className : String) : String :=
  "    \"" ++ className ++ "\";"

/-- The edge line written for an edge. -/
def edgeLine (edge : InheritanceEdge) : String :=
  "    \"" ++ edge.derived ++ "\" -> \"" ++ edge.base
    ++ "\" [label=\"" ++ edge.accessSpecifier ++ "\"];"

/-- A block of lines as text: every line followed by a newline. -/
def linesText : List String → String
  | [] => ""
  | l :: ls => l ++ "\n" ++ linesText ls

/-- The text of the three header lines and the empty line after them. -/
def dotHeader : String :=
  "digraph InheritanceGraph \x7b\n    rankdir=BT;\n"
    ++ "    node [shape=box, style=filled, fillcolor=lightblue];\n\n"

/-- The class-name set obtained by inserting the given names in order into
the empty set. -/
def insertAll (names : List String) : StringSet :=
  names.foldl StringSet.insert StringSet.empty

/-- The lines of the printed text in order: three header lines, an empty
line, the node lines, an empty line, the edge lines, the closing line. -/
def outputLines (v : InheritanceVisitor) : List String :=
  ["digraph InheritanceGraph \x7b", "    rankdir=BT;",
    "    node [shape=box, style=filled, fillcolor=lightblue];", ""]
    ++ v.classes.elems.map nodeLine ++ [""] ++ v.edges.map edgeLine ++ ["\x7d"]

/-- The double-quote character. -/
def quoteChar : Char := Char.ofNat 34

/-- The newline character. -/
def newlineChar : Char := Char.ofNat 10

/-- A text is plain when it holds no double quote and no newline. -/
def plainText (s : String) : Prop :=
  ¬ quoteChar ∈ s.data ∧ ¬ newlineChar ∈ s.data

instance (s : String) : Decidable (plainText s) :=
  inferInstanceAs (Decidable (¬ quoteChar ∈ s.data ∧ ¬ newlineChar ∈ s.data))

/-- A graph is plain when its class names and the three fields of each of its
edges are plain. -/
def plainGraph (v : InheritanceVisitor) : Prop :=
  (∀ n ∈ v.classes.elems, plainText n) ∧
    ∀ e ∈ v.edges, plainText e.derived ∧ plainText e.base ∧ plainText e.accessSpecifier

instance (v : InheritanceVisitor) : Decidable (plainGraph v) :=
  inferInstanceAs (Decidable ((∀ n ∈ v.classes.elems, plainText n) ∧
    ∀ e ∈ v.edges, plainText e.derived ∧ plainText e.base ∧ plainText e.accessSpecifier))

/-- The identifiers a declaration presents are those of the lexer: the
identifier of the declaration, and of each record a base specifier resolves
to, is a non-empty text when present. -/
def identifiersNonEmpty (d : CXXRecordDecl) : Prop :=
  ¬ d.getIdentifier = some "" ∧ ∀ b ∈ d.bases, ¬ resolvedName b = some ""

instance (d : CXXRecordDecl) : Decidable (identifiersNonEmpty d) :=
  inferInstanceAs (Decidable
    (¬ d.getIdentifier = some "" ∧ ∀ b ∈ d.bases, ¬ resolvedName b = some ""))

/-! ## Fixtures: the repository's test inputs -/

/-- A named, non-template class definition with the given base specifiers. -/
def classDef (name : String) (bases : List CXXBaseSpecifier) : CXXRecordDecl :=
  { isThisDeclarationADefinition := true, getDescribedClassTemplate := none,
    getIdentifier := some name, bases := bases }

/-- A named definition that describes a class template. -/
def templateDef (name : String) (bases : List CXXBaseSpecifier) : CXXRecordDecl :=
  { isThisDeclarationADefinition := true, getDescribedClassTemplate := some ClassTemplateDecl.mk,
    getIdentifier := some name, bases := bases }

/-- A base specifier that resolves to the record named `name`. -/
def baseOf (name : String) (access : AccessSpecifier) : CXXBaseSpecifier :=
  { getAsCXXRecordDecl := some { getIdentifier := some name }, getAccessSpecifier := access }

/-- The record declarations of `test.cpp`, in source order. -/
def testDecls : List CXXRecordDecl :=
  [classDef "Animal" [],
   classDef "Dog" [baseOf "Animal" AccessSpecifier.AS_public],
   classDef "Cat" [baseOf "Animal" AccessSpecifier.AS_private]]

/-- The record declarations of `test_advanced.cpp`, in source order.  The base
of `struct Motorcycle : Vehicle` is written without access specifier;
`getAccessSpecifier()` gives the access in force, which for a `struct` is
`AS_public` (the file itself comments it as public inheritance). -/
def testAdvancedDecls : List CXXRecordDecl :=
  [classDef "Vehicle" [],
   classDef "Engine" [],
   classDef "Car" [baseOf "Vehicle" AccessSpecifier.AS_public,
                   baseOf "Engine" AccessSpecifier.AS_private],
   classDef "Bicycle" [baseOf "Vehicle" AccessSpecifier.AS_protected],
   classDef "ElectricCar" [baseOf "Car" AccessSpecifier.AS_public],
   templateDef "Container" [],
   classDef "DataHolder" [],
   classDef "Motorcycle" [baseOf "Vehicle" AccessSpecifier.AS_public]]

/-- A class template `Box` and an ordinary class of the same name (as with
two namespaces, or a primary template with an explicit specialization), both
deriving from `Base`. -/
def shadowedTemplateDecls : List CXXRecordDecl :=
  [classDef "Base" [],
   templateDef "Box" [baseOf "Base" AccessSpecifier.AS_public],
   classDef "Box" [baseOf "Base" AccessSpecifier.AS_public]]

/-- A declaration sequence whose only declaration, and its base, carry an
identifier with the empty text. -/
def emptyNamedDecls : List CXXRecordDecl :=
  [classDef "" [baseOf "" AccessSpecifier.AS_public]]

/-! ## Lemmas on the containers -/

namespace StringSet

theorem mem_iff (s : StringSet) (n : String) : n ∈ s ↔ n ∈ s.elems := Iff.rfl

theorem not_mem_empty (n : String) : ¬ n ∈ StringSet.empty := by
  simp [mem_iff, StringSet.empty]

theorem mem_insert (s : StringSet) (x n : String) : n ∈ s.insert x ↔ n = x ∨ n ∈ s := by
  simp only [mem_iff, StringSet.insert]
  exact mem_insertKey x s.elems n

theorem nodup (s : StringSet) : s.elems.Nodup := s.sorted.nodup

theorem ext_elems {s t : StringSet} (h : s.elems = t.elems) : s = t := by
  cases s; cases t; cases h; rfl

/-- Two sets with the same members are the same set: the iteration order is
determined by the membership alone. -/
theorem ext_mem {s t : StringSet} (h : ∀ n, n ∈ s ↔ n ∈ t) : s = t := by
  apply ext_elems
  have hp : s.elems.Perm t.elems := (List.perm_ext_iff_of_nodup s.nodup t.nodup).mpr h
  exact List.eq_of_perm_of_sorted hp s.sorted t.sorted

end StringSet

theorem mem_insertAll_aux (names : List String) (s : StringSet) (n : String) :
    n ∈ names.foldl StringSet.insert s ↔ n ∈ s ∨ n ∈ names := by
  induction names generalizing s with
  | nil => simp
  | cons x xs ih =>
    simp only [List.foldl_cons, ih, StringSet.mem_insert, List.mem_cons]
    tauto

theorem mem_insertAll (names : List String) (n : String) :
    n ∈ insertAll names ↔ n ∈ names := by
  unfold insertAll
  rw [mem_insertAll_aux]
  simp [StringSet.not_mem_empty]

/-! ## Lemmas on the visitor -/

theorem visitBase_edges (className : String) (v : InheritanceVisitor) (b : CXXBaseSpecifier) :
    (visitBase className v b).edges = v.edges ++ (specEdge className b).toList := by
  unfold visitBase specEdge resolvedName
  rcases b.getAsCXXRecordDecl with _ | ⟨⟨_ | baseName⟩⟩ <;> simp

theorem visitBase_mem (className : String) (v : InheritanceVisitor) (b : CXXBaseSpecifier)
    (n : String) :
    n ∈ (visitBase className v b).classes ↔ n ∈ v.classes ∨ resolvedName b = some n := by
  unfold visitBase resolvedName
  rcases b.getAsCXXRecordDecl with _ | ⟨⟨_ | baseName⟩⟩
  · simp
  · simp
  · simp only [StringSet.mem_insert, Option.some.injEq]
    constructor
    · rintro (h1 | h1)
      · exact Or.inr h1.symm
      · exact Or.inl h1
    · rintro (h1 | h1)
      · exact Or.inr h1
      · exact Or.inl h1.symm

theorem foldl_visitBase_edges (className : String) (bs : List CXXBaseSpecifier)
    (v : InheritanceVisitor) :
    (bs.foldl (visitBase className) v).edges = v.edges ++ bs.filterMap (specEdge className) := by
  induction bs generalizing v with
  | nil => simp
  | cons b bs ih =>
    rw [List.foldl_cons, ih, visitBase_edges, List.append_assoc]
    congr 1
    cases h : specEdge className b with
    | none => simp [List.filterMap_cons, h]
    | some e => simp [List.filterMap_cons, h]

theorem foldl_visitBase_mem (className : String) (bs : List CXXBaseSpecifier)
    (v : InheritanceVisitor) (n : String) :
    n ∈ (bs.foldl (visitBase className) v).classes ↔
      n ∈ v.classes ∨ n ∈ bs.filterMap resolvedName := by
  induction bs generalizing v with
  | nil => simp
  | cons b bs ih =>
    rw [List.foldl_cons, ih, visitBase_mem]
    simp only [List.mem_filterMap, List.mem_cons, exists_eq_or_imp]
    tauto

/-- The callback never asks the traversal to stop. -/
theorem VisitCXXRecordDecl_fst (v : InheritanceVisitor) (d : CXXRecordDecl) :
    (VisitCXXRecordDecl v d).1 = true := by
  unfold VisitCXXRecordDecl
  split
  · rfl
  · split
    · rfl
    · split <;> rfl

/-- A declaration that is not accepted leaves the visitor as it was. -/
theorem VisitCXXRecordDecl_not_accepted (v : InheritanceVisitor) (d : CXXRecordDecl)
    (h : accepted d = false) : (VisitCXXRecordDecl v d).2 = v := by
  unfold VisitCXXRecordDecl
  unfold accepted at h
  cases h1 : d.isThisDeclarationADefinition with
  | false => simp
  | true =>
    cases h2 : d.getDescribedClassTemplate with
    | some t => simp
    | none =>
      cases h3 : d.getIdentifier with
      | none => simp
      | some name => simp [h1, h2, h3] at h

/-- An accepted declaration registers its name and then runs the base loop. -/
theorem VisitCXXRecordDecl_accepted (v : InheritanceVisitor) (d : CXXRecordDecl) (name : String)
    (hn : d.getIdentifier = some name) (h : accepted d = true) :
    (VisitCXXRecordDecl v d).2 =
      d.bases.foldl (visitBase name) { v with classes := v.classes.insert name } := by
  unfold VisitCXXRecordDecl
  unfold accepted at h
  simp only [Bool.and_eq_true, Option.isNone_iff_eq_none] at h
  obtain ⟨⟨h1, h2⟩, -⟩ := h
  simp [h1, h2, hn]

theorem VisitCXXRecordDecl_edges (v : InheritanceVisitor) (d : CXXRecordDecl) :
    (VisitCXXRecordDecl v d).2.edges = v.edges ++ specDeclEdges d := by
  unfold specDeclEdges
  cases hn : d.getIdentifier with
  | none =>
    rw [VisitCXXRecordDecl_not_accepted v d (by simp [accepted, hn])]
    simp
  | some name =>
    cases ha : accepted d with
    | false => rw [VisitCXXRecordDecl_not_accepted v d ha]; simp
    | true => rw [VisitCXXRecordDecl_accepted v d name hn ha, foldl_visitBase_edges]; simp

theorem VisitCXXRecordDecl_mem (v : InheritanceVisitor) (d : CXXRecordDecl) (n : String) :
    n ∈ (VisitCXXRecordDecl v d).2.classes ↔ n ∈ v.classes ∨ n ∈ specDeclNames d := by
  unfold specDeclNames
  cases hn : d.getIdentifier with
  | none =>
    rw [VisitCXXRecordDecl_not_accepted v d (by simp [accepted, hn])]
    simp
  | some name =>
    cases ha : accepted d with
    | false => rw [VisitCXXRecordDecl_not_accepted v d ha]; simp
    | true =>
      rw [VisitCXXRecordDecl_accepted v d name hn ha, foldl_visitBase_mem]
      simp only [StringSet.mem_insert, if_true, List.mem_cons]
      tauto

/-- The traversal runs the callback on every declaration, in order. -/
theorem TraverseDecl_eq_foldl (decls : List CXXRecordDecl) (v : InheritanceVisitor) :
    TraverseDecl v decls = (true, decls.foldl (fun w d => (VisitCXXRecordDecl w d).2) v) := by
  induction decls generalizing v with
  | nil => rfl
  | cons d ds ih =>
    have h1 := VisitCXXRecordDecl_fst v d
    rw [TraverseDecl]
    cases hv : VisitCXXRecordDecl v d with
    | mk r w =>
      rw [hv] at h1
      simp only at h1
      subst h1
      simp only [List.foldl_cons, hv]
      exact ih w

theorem TraverseDecl_edges (decls : List CXXRecordDecl) (v : InheritanceVisitor) :
    (TraverseDecl v decls).2.edges = v.edges ++ specEdges decls := by
  rw [TraverseDecl_eq_foldl]
  unfold specEdges
  induction decls generalizing v with
  | nil => simp
  | cons d ds ih =>
    simp only [List.foldl_cons, List.flatMap_cons]
    rw [ih, VisitCXXRecordDecl_edges, List.append_assoc]

theorem TraverseDecl_mem (decls : List CXXRecordDecl) (v : InheritanceVisitor) (n : String) :
    n ∈ (TraverseDecl v decls).2.classes ↔ n ∈ v.classes ∨ ∃ d ∈ decls, n ∈ specDeclNames d := by
  rw [TraverseDecl_eq_foldl]
  induction decls generalizing v with
  | nil => simp
  | cons d ds ih =>
    simp only [List.foldl_cons, List.mem_cons, exists_eq_or_imp]
    rw [ih, VisitCXXRecordDecl_mem]
    tauto

theorem extract_edges (decls : List CXXRecordDecl) : (extract decls).edges = specEdges decls := by
  unfold extract
  rw [TraverseDecl_edges]
  rfl

theorem extract_mem (decls : List CXXRecordDecl) (n : String) :
    n ∈ (extract decls).classes ↔ ∃ d ∈ decls, n ∈ specDeclNames d := by
  unfold extract
  rw [TraverseDecl_mem]
  simp [InheritanceVisitor.init, StringSet.not_mem_empty]

theorem mem_specDeclEdges (d : CXXRecordDecl) (e : InheritanceEdge) :
    e ∈ specDeclEdges d ↔
      accepted d = true ∧ d.getIdentifier = some e.derived ∧
        ∃ b ∈ d.bases, resolvedName b = some e.base ∧
          e.accessSpecifier = accessSpec b.getAccessSpecifier := by
  unfold specDeclEdges
  cases hn : d.getIdentifier with
  | none => simp
  | some name =>
    cases ha : accepted d with
    | false => simp
    | true =>
      simp only [if_true, List.mem_filterMap, specEdge, true_and, Option.some.injEq]
      constructor
      · rintro ⟨b, hb, he⟩
        cases hbn : resolvedName b with
        | none => simp [hbn] at he
        | some bn =>
          simp only [hbn, Option.map_some', Option.some.injEq] at he
          subst he
          exact ⟨rfl, b, hb, hbn, rfl⟩
      · rintro ⟨h1, b, hb, hbn, hacc⟩
        refine ⟨b, hb, ?_⟩
        rw [hbn, Option.map_some', h1, ← hacc]

theorem mem_specDeclNames (d : CXXRecordDecl) (n : String) :
    n ∈ specDeclNames d ↔
      accepted d = true ∧
        (d.getIdentifier = some n ∨ ∃ b ∈ d.bases, resolvedName b = some n) := by
  unfold specDeclNames
  cases hn : d.getIdentifier with
  | none => simp [accepted, hn]
  | some name =>
    cases ha : accepted d with
    | false => simp
    | true =>
      simp only [if_true, List.mem_cons, List.mem_filterMap, true_and, Option.some.injEq]
      constructor
      · rintro (h | h)
        · exact Or.inl h.symm
        · exact Or.inr h
      · rintro (h | h)
        · exact Or.inl h.symm
        · exact Or.inr h

theorem length_specDeclEdges (d : CXXRecordDecl) :
    (specDeclEdges d).length =
      if accepted d then (d.bases.filter fun b => (resolvedName b).isSome).length else 0 := by
  unfold specDeclEdges
  cases hn : d.getIdentifier with
  | none => simp [accepted, hn]
  | some name =>
    cases ha : accepted d with
    | false => simp
    | true =>
      simp only [if_true]
      induction d.bases with
      | nil => simp
      | cons b bs ih =>
        cases hb : resolvedName b with
        | none => simp [List.filterMap_cons, specEdge, hb, ih]
        | some bn => simp [List.filterMap_cons, specEdge, hb, ih]

theorem length_specEdges (decls : List CXXRecordDecl) :
    (specEdges decls).length = resolvableCount decls := by
  unfold specEdges resolvableCount
  induction decls with
  | nil => simp
  | cons d ds ih =>
    rw [List.flatMap_cons, List.length_append, ih, length_specDeclEdges]
    cases ha : accepted d with
    | false => simp [List.filter_cons, ha]
    | true => simp [List.filter_cons, ha]

/-! ## Lemmas on the printer -/

theorem printNodes_eq (classes : List String) (cout : String) :
    printNodes classes cout = cout ++ linesText (classes.map nodeLine) := by
  unfold printNodes
  induction classes generalizing cout with
  | nil => simp [linesText]
  | cons c cs ih =>
    rw [List.foldl_cons, ih]
    simp only [List.map_cons, linesText, nodeLine, String.append_assoc]

theorem printEdges_eq (edges : List InheritanceEdge) (cout : String) :
    printEdges edges cout = cout ++ linesText (edges.map edgeLine) := by
  unfold printEdges
  induction edges generalizing cout with
  | nil => simp [linesText]
  | cons e es ih =>
    rw [List.foldl_cons, ih]
    simp only [List.map_cons, linesText, edgeLine, String.append_assoc]

/-- The printed text: header, node block, empty line, edge block, closing
line. -/
theorem printDOT_eq (v : InheritanceVisitor) :
    printDOT v = dotHeader ++ linesText (v.classes.elems.map nodeLine) ++ "\n"
      ++ linesText (v.edges.map edgeLine) ++ "\x7d\n" := by
  unfold printDOT
  simp only [printNodes_eq, printEdges_eq, String.append_assoc]
  rfl

theorem nodeLine_injective : Function.Injective nodeLine := by
  intro a b h
  unfold nodeLine at h
  have h1 := congrArg String.data h
  simp only [String.data_append] at h1
  exact String.ext (List.append_cancel_left (List.append_cancel_right h1))

theorem insertAll_perm (names1 names2 : List String) (h : names1.Perm names2) :
    insertAll names1 = insertAll names2 := by
  apply StringSet.ext_mem
  intro n
  rw [mem_insertAll, mem_insertAll]
  exact h.mem_iff

/-! ## Further lemmas on the set and the visitor -/

/-- Inserting a key that is present leaves the set as it is. -/
theorem StringSet.insert_of_mem (s : StringSet) (x : String) (h : x ∈ s) : s.insert x = s := by
  apply StringSet.ext_mem
  intro n
  rw [StringSet.mem_insert]
  constructor
  · rintro (rfl | hn)
    · exact h
    · exact hn
  · exact Or.inr

/-- Inserting a key a second time changes nothing. -/
theorem StringSet.insert_insert (s : StringSet) (x : String) :
    (s.insert x).insert x = s.insert x :=
  StringSet.insert_of_mem _ _ ((StringSet.mem_insert s x x).mpr (Or.inl rfl))

theorem StringSet.iterate_insert (s : StringSet) (x : String) (k : Nat) :
    Nat.iterate (fun t => StringSet.insert t x) (k + 1) s = s.insert x := by
  induction k with
  | zero => rfl
  | succ k ih =>
    rw [Function.iterate_succ_apply', ih, StringSet.insert_insert]

/-- The traversal never stops early. -/
theorem TraverseDecl_fst (decls : List CXXRecordDecl) (v : InheritanceVisitor) :
    (TraverseDecl v decls).1 = true := by
  rw [TraverseDecl_eq_foldl]

theorem accessSpec_mem (a : AccessSpecifier) :
    accessSpec a = "public" ∨ accessSpec a = "protected" ∨ accessSpec a = "private" := by
  cases a <;> simp [accessSpec]

/-- The class-name set after a traversal is the set of the names ascribed to
the declarations. -/
theorem extract_classes (decls : List CXXRecordDecl) :
    (extract decls).classes = insertAll (decls.flatMap specDeclNames) := by
  apply StringSet.ext_mem
  intro n
  rw [extract_mem, mem_insertAll, List.mem_flatMap]

theorem HandleTranslationUnit_eq (decls : List CXXRecordDecl) :
    HandleTranslationUnit decls =
      dotHeader ++ linesText ((insertAll (decls.flatMap specDeclNames)).elems.map nodeLine)
        ++ "\n" ++ linesText ((specEdges decls).map edgeLine) ++ "\x7d\n" := by
  have h : HandleTranslationUnit decls = printDOT (extract decls) := rfl
  rw [h, printDOT_eq, extract_classes, extract_edges]

theorem specDeclNames_ne_empty (d : CXXRecordDecl) (h : identifiersNonEmpty d) (n : String)
    (hn : n ∈ specDeclNames d) : n ≠ "" := by
  rcases (mem_specDeclNames d n).mp hn with ⟨-, hi | ⟨b, hb, hr⟩⟩
  · intro he
    exact h.1 (he ▸ hi)
  · intro he
    exact h.2 b hb (he ▸ hr)

/-! ## Lemmas on the characters of the printed text -/

theorem split_at_char (c : Char) (a b r1 r2 : List Char) (ha : ¬ c ∈ a) (hb : ¬ c ∈ b)
    (h : a ++ c :: r1 = b ++ c :: r2) : a = b ∧ r1 = r2 := by
  induction a generalizing b with
  | nil =>
    cases b with
    | nil => simpa using h
    | cons y b1 =>
      simp only [List.nil_append, List.cons_append, List.cons.injEq] at h
      exact absurd (h.1 ▸ List.mem_cons_self _ _) hb
  | cons x a1 ih =>
    cases b with
    | nil =>
      simp only [List.nil_append, List.cons_append, List.cons.injEq] at h
      exact absurd (h.1 ▸ List.mem_cons_self _ _) ha
    | cons y b1 =>
      simp only [List.cons_append, List.cons.injEq] at h
      obtain ⟨hxy, ht⟩ := h
      have := ih b1 (fun hc => ha (List.mem_cons_of_mem _ hc))
        (fun hc => hb (List.mem_cons_of_mem _ hc)) ht
      exact ⟨by rw [hxy, this.1], this.2⟩

theorem nodeLine_data (n : String) (rest : List Char) :
    (nodeLine n ++ "\n").data ++ rest
      = "    ".data ++ (quoteChar :: (n.data ++ quoteChar :: (";\n".data ++ rest))) := by
  simp only [nodeLine, String.data_append, List.append_assoc]
  rfl

theorem edgeLine_data (e : InheritanceEdge) (rest : List Char) :
    (edgeLine e ++ "\n").data ++ rest
      = "    ".data ++ (quoteChar :: (e.derived.data ++ quoteChar :: (" -> ".data ++
          (quoteChar :: (e.base.data ++ quoteChar :: (" [label=".data ++
            (quoteChar :: (e.accessSpecifier.data ++ quoteChar :: ("];\n".data ++ rest))))))))) := by
  simp only [edgeLine, String.data_append, List.append_assoc]
  rfl


theorem linesText_cons_data (l : String) (ls : List String) (rest : List Char) :
    (linesText (l :: ls)).data ++ rest = (l ++ "\n").data ++ ((linesText ls).data ++ rest) := by
  simp only [linesText, String.data_append, List.append_assoc]

theorem nodeLines_parse (l1 l2 : List String) (r1 r2 : List Char)
    (h1 : ∀ n ∈ l1, ¬ quoteChar ∈ n.data) (h2 : ∀ n ∈ l2, ¬ quoteChar ∈ n.data)
    (h : (linesText (l1.map nodeLine)).data ++ ("\n".data ++ r1)
      = (linesText (l2.map nodeLine)).data ++ ("\n".data ++ r2)) :
    l1 = l2 ∧ r1 = r2 := by
  induction l1 generalizing l2 with
  | nil =>
    cases l2 with
    | nil => exact ⟨rfl, List.append_cancel_left h⟩
    | cons b l2 =>
      exfalso
      rw [List.map_cons, linesText_cons_data, nodeLine_data] at h
      have hh := congrArg List.head? h
      change some (Char.ofNat 10) = some (Char.ofNat 32) at hh
      exact absurd (Option.some.inj hh) (by decide)
  | cons a l1 ih =>
    cases l2 with
    | nil =>
      exfalso
      rw [List.map_cons, linesText_cons_data, nodeLine_data] at h
      have hh := congrArg List.head? h
      change some (Char.ofNat 32) = some (Char.ofNat 10) at hh
      exact absurd (Option.some.inj hh) (by decide)
    | cons b l2 =>
      rw [List.map_cons, List.map_cons, linesText_cons_data, linesText_cons_data,
        nodeLine_data, nodeLine_data] at h
      have h3 := List.append_cancel_left h
      rw [List.cons.injEq] at h3
      obtain ⟨hab, ht⟩ := split_at_char quoteChar _ _ _ _
        (h1 a (List.mem_cons_self _ _)) (h2 b (List.mem_cons_self _ _)) h3.2
      have ht2 := List.append_cancel_left ht
      obtain ⟨hl, hr⟩ := ih l2 (fun n hn => h1 n (List.mem_cons_of_mem _ hn))
        (fun n hn => h2 n (List.mem_cons_of_mem _ hn)) ht2
      exact ⟨by rw [String.ext hab, hl], hr⟩

theorem edgeLines_parse (l1 l2 : List InheritanceEdge)
    (h1 : ∀ e ∈ l1, ¬ quoteChar ∈ e.derived.data ∧ ¬ quoteChar ∈ e.base.data ∧
      ¬ quoteChar ∈ e.accessSpecifier.data)
    (h2 : ∀ e ∈ l2, ¬ quoteChar ∈ e.derived.data ∧ ¬ quoteChar ∈ e.base.data ∧
      ¬ quoteChar ∈ e.accessSpecifier.data)
    (h : (linesText (l1.map edgeLine)).data ++ [] = (linesText (l2.map edgeLine)).data ++ []) :
    l1 = l2 := by
  induction l1 generalizing l2 with
  | nil =>
    cases l2 with
    | nil => rfl
    | cons b l2 =>
      exfalso
      rw [List.map_cons, linesText_cons_data, edgeLine_data] at h
      exact absurd (congrArg List.length h) (by simp [linesText])
  | cons a l1 ih =>
    cases l2 with
    | nil =>
      exfalso
      rw [List.map_cons, linesText_cons_data, edgeLine_data] at h
      exact absurd (congrArg List.length h) (by simp [linesText])
    | cons b l2 =>
      rw [List.map_cons, List.map_cons, linesText_cons_data, linesText_cons_data,
        edgeLine_data, edgeLine_data] at h
      have ha := h1 a (List.mem_cons_self _ _)
      have hb := h2 b (List.mem_cons_self _ _)
      have h3 := List.append_cancel_left h
      rw [List.cons.injEq] at h3
      obtain ⟨hd, t1⟩ := split_at_char quoteChar _ _ _ _ ha.1 hb.1 h3.2
      have t2 := List.append_cancel_left t1
      rw [List.cons.injEq] at t2
      obtain ⟨hbase, t3⟩ := split_at_char quoteChar _ _ _ _ ha.2.1 hb.2.1 t2.2
      have t4 := List.append_cancel_left t3
      rw [List.cons.injEq] at t4
      obtain ⟨hacc, t5⟩ := split_at_char quoteChar _ _ _ _ ha.2.2 hb.2.2 t4.2
      have t6 := List.append_cancel_left t5
      have hl := ih l2 (fun e he => h1 e (List.mem_cons_of_mem _ he))
        (fun e he => h2 e (List.mem_cons_of_mem _ he)) t6
      have hab : a = b := by
        cases a; cases b
        simp only [InheritanceEdge.mk.injEq]
        exact ⟨String.ext hd, String.ext hbase, String.ext hacc⟩
      rw [hab, hl]

/-- On graphs whose names hold no double quote, the printed text determines
the graph. -/
theorem printDOT_determines_graph (v w : InheritanceVisitor)
    (hv1 : ∀ n ∈ v.classes.elems, ¬ quoteChar ∈ n.data)
    (hv2 : ∀ e ∈ v.edges, ¬ quoteChar ∈ e.derived.data ∧ ¬ quoteChar ∈ e.base.data ∧
      ¬ quoteChar ∈ e.accessSpecifier.data)
    (hw1 : ∀ n ∈ w.classes.elems, ¬ quoteChar ∈ n.data)
    (hw2 : ∀ e ∈ w.edges, ¬ quoteChar ∈ e.derived.data ∧ ¬ quoteChar ∈ e.base.data ∧
      ¬ quoteChar ∈ e.accessSpecifier.data)
    (h : printDOT v = printDOT w) : v = w := by
  rw [printDOT_eq, printDOT_eq] at h
  have hd := congrArg String.data h
  simp only [String.data_append, List.append_assoc] at hd
  have h1 := List.append_cancel_left hd
  obtain ⟨hc, hr⟩ := nodeLines_parse _ _ _ _ hv1 hw1 h1
  have h2 := List.append_cancel_right hr
  have he := edgeLines_parse _ _ hv2 hw2 (by rw [List.append_nil, List.append_nil]; exact h2)
  cases v with
  | mk vc ve =>
    cases w with
    | mk wc we =>
      simp only at hc he
      rw [StringSet.ext_elems hc, he]


theorem linesText_append (a b : List String) :
    linesText (a ++ b) = linesText a ++ linesText b := by
  induction a with
  | nil => simp [linesText]
  | cons x xs ih =>
    rw [List.cons_append]
    show x ++ "\n" ++ linesText (xs ++ b) = x ++ "\n" ++ linesText xs ++ linesText b
    rw [ih, String.append_assoc (x ++ "\n")]

theorem printDOT_eq_outputLines (v : InheritanceVisitor) :
    printDOT v = linesText (outputLines v) := by
  rw [printDOT_eq]
  unfold outputLines
  simp only [linesText_append]
  rfl

theorem length_outputLines (v : InheritanceVisitor) :
    (outputLines v).length = v.classes.size + v.edges.length + 6 := by
  unfold outputLines StringSet.size
  simp only [List.length_append, List.length_map, List.length_cons, List.length_nil]
  omega

theorem count_newline_linesText (ls : List String) (h : ∀ l ∈ ls, ¬ newlineChar ∈ l.data) :
    (linesText ls).data.count newlineChar = ls.length := by
  induction ls with
  | nil => rfl
  | cons l ls ih =>
    have h0 : l.data.count newlineChar = 0 :=
      List.count_eq_zero.mpr (h l (List.mem_cons_self _ _))
    have h1 : "\n".data.count newlineChar = 1 := by decide
    simp only [linesText, String.data_append, List.count_append, h0, h1,
      ih (fun l hl => h l (List.mem_cons_of_mem _ hl)), List.length_cons]
    omega

theorem outputLines_no_newline (v : InheritanceVisitor) (hv : plainGraph v) :
    ∀ l ∈ outputLines v, ¬ newlineChar ∈ l.data := by
  intro l hl
  unfold outputLines at hl
  simp only [List.mem_append, List.mem_map, List.mem_cons, List.mem_singleton,
    List.not_mem_nil, or_false] at hl
  rcases hl with (((((rfl | rfl | rfl | rfl) | ⟨n, hn, rfl⟩) | rfl) | ⟨e, he, rfl⟩) | rfl)
  · decide
  · decide
  · decide
  · decide
  · have hp := (hv.1 n hn).2
    simp only [nodeLine, String.data_append, List.mem_append, not_or]
    exact ⟨⟨by decide, hp⟩, by decide⟩
  · decide
  · obtain ⟨h1, h2, h3⟩ := hv.2 e he
    simp only [edgeLine, String.data_append, List.mem_append, not_or]
    exact ⟨⟨⟨⟨⟨⟨by decide, h1.2⟩, by decide⟩, h2.2⟩, by decide⟩, h3.2⟩, by decide⟩
  · decide

/-- The resolvable base specifiers and the edges ascribed to them correspond
one to one, in order. -/
theorem forall2_resolvable_specEdge (R : CXXBaseSpecifier → InheritanceEdge → Prop)
    (name : String) (bases : List CXXBaseSpecifier)
    (hR : ∀ b e, specEdge name b = some e → R b e) :
    List.Forall₂ R (bases.filter fun b => (resolvedName b).isSome)
      (bases.filterMap (specEdge name)) := by
  induction bases with
  | nil => exact List.Forall₂.nil
  | cons b bs ih =>
    cases hb : resolvedName b with
    | none =>
      have hs : specEdge name b = none := by simp [specEdge, hb]
      simpa [List.filter_cons, List.filterMap_cons, hb, hs] using ih
    | some bn =>
      have hs : specEdge name b = some
          { derived := name, base := bn, accessSpecifier := accessSpec b.getAccessSpecifier } := by
        simp [specEdge, hb]
      simp only [List.filter_cons, List.filterMap_cons, hb, hs, Option.isSome_some, if_true]
      exact List.Forall₂.cons (hR b _ hs) ih

/-! ## The claims -/

/-- C1 (superset invariant): after visiting any sequence of declarations from
the empty graph, both endpoints of every edge are members of the class-name
set. -/
theorem superset_invariant (decls : List CXXRecordDecl) (e : InheritanceEdge)
    (he : e ∈ (extract decls).edges) :
    e.derived ∈ (extract decls).classes ∧ e.base ∈ (extract decls).classes := by
  rw [extract_edges] at he
  unfold specEdges at he
  obtain ⟨d, hd, hed⟩ := List.mem_flatMap.mp he
  obtain ⟨ha, hn, b, hb, hbn, -⟩ := (mem_specDeclEdges d e).mp hed
  constructor
  · exact (extract_mem decls e.derived).mpr ⟨d, hd, (mem_specDeclNames d _).mpr ⟨ha, Or.inl hn⟩⟩
  · exact (extract_mem decls e.base).mpr
      ⟨d, hd, (mem_specDeclNames d _).mpr ⟨ha, Or.inr ⟨b, hb, hbn⟩⟩⟩

/-- C1 at `test.cpp`: the edge `Cat -> Animal` has both endpoints registered. -/
theorem superset_invariant_witness :
    ({ derived := "Cat", base := "Animal", accessSpecifier := "private" } : InheritanceEdge)
        ∈ (extract testDecls).edges ∧
      "Cat" ∈ (extract testDecls).classes ∧ "Animal" ∈ (extract testDecls).classes :=
  ⟨by decide, superset_invariant testDecls
    { derived := "Cat", base := "Animal", accessSpecifier := "private" } (by decide)⟩

/-- C2 (edge sequence is discovery order, without de-duplication): the final
edge list is the concatenation, in visit order, of the edges of each accepted
declaration, one per resolvable base specifier in declaration order; its
length is the total number of resolvable base specifiers of accepted
declarations. -/
theorem edges_discovery_order (decls : List CXXRecordDecl) :
    (extract decls).edges = specEdges decls ∧
      (extract decls).edges.length = resolvableCount decls := by
  rw [extract_edges]
  exact ⟨rfl, length_specEdges decls⟩

/-- C3 (the class-name set is exactly the accepted names plus the resolved
base names). -/
theorem classes_exactly (decls : List CXXRecordDecl) (n : String) :
    n ∈ (extract decls).classes ↔
      (∃ d ∈ decls, accepted d = true ∧ d.getIdentifier = some n) ∨
      (∃ d ∈ decls, accepted d = true ∧ ∃ b ∈ d.bases, resolvedName b = some n) := by
  rw [extract_mem]
  constructor
  · rintro ⟨d, hd, hn⟩
    rcases (mem_specDeclNames d n).mp hn with ⟨ha, h | h⟩
    · exact Or.inl ⟨d, hd, ha, h⟩
    · exact Or.inr ⟨d, hd, ha, h⟩
  · rintro (⟨d, hd, ha, h⟩ | ⟨d, hd, ha, h⟩)
    · exact ⟨d, hd, (mem_specDeclNames d n).mpr ⟨ha, Or.inl h⟩⟩
    · exact ⟨d, hd, (mem_specDeclNames d n).mpr ⟨ha, Or.inr h⟩⟩

/-- C4 (silent skip): a forward declaration, a declaration describing a class
template, or a declaration without identifier leaves the class-name set and
the edge list as they were. -/
theorem silent_skip (v : InheritanceVisitor) (d : CXXRecordDecl)
    (h : d.isThisDeclarationADefinition = false ∨ d.getDescribedClassTemplate.isSome = true ∨
      d.getIdentifier = none) :
    (VisitCXXRecordDecl v d).2.classes = v.classes ∧
      (VisitCXXRecordDecl v d).2.edges = v.edges := by
  have ha : accepted d = false := by
    unfold accepted
    rcases h with h | h | h
    · simp [h]
    · cases ht : d.getDescribedClassTemplate with
      | none => simp [ht] at h
      | some t => simp
    · simp [h]
  rw [VisitCXXRecordDecl_not_accepted v d ha]
  exact ⟨rfl, rfl⟩

/-- C4 at a class template that carries a base specifier, visited after
`test.cpp`. -/
theorem silent_skip_witness :
    (templateDef "Box" [baseOf "Base" AccessSpecifier.AS_public]).getDescribedClassTemplate.isSome
        = true ∧
      (VisitCXXRecordDecl (extract testDecls)
          (templateDef "Box" [baseOf "Base" AccessSpecifier.AS_public])).2.classes
        = (extract testDecls).classes ∧
      (VisitCXXRecordDecl (extract testDecls)
          (templateDef "Box" [baseOf "Base" AccessSpecifier.AS_public])).2.edges
        = (extract testDecls).edges :=
  ⟨rfl, silent_skip (extract testDecls)
    (templateDef "Box" [baseOf "Base" AccessSpecifier.AS_public]) (Or.inr (Or.inl rfl))⟩

/-- C5, as stated, fails: on the declarations of `test_advanced.cpp` the last
edge is not labelled `private`, so the edge list is not the one claimed. -/
theorem scenario_B_counterexample :
    ¬ ((extract testAdvancedDecls).edges =
      [{ derived := "Car", base := "Vehicle", accessSpecifier := "public" },
       { derived := "Car", base := "Engine", accessSpecifier := "private" },
       { derived := "Bicycle", base := "Vehicle", accessSpecifier := "protected" },
       { derived := "ElectricCar", base := "Car", accessSpecifier := "public" },
       { derived := "Motorcycle", base := "Vehicle", accessSpecifier := "private" }]) := by
  decide

/-- C5, amended (scenario B): visiting the declarations of `test_advanced.cpp`
yields the seven class names, without `Container`, and the five edges in
discovery order, the last one, `Motorcycle -> Vehicle`, labelled `public`. -/
theorem scenario_B :
    (∀ n, n ∈ (extract testAdvancedDecls).classes ↔
      n ∈ ["Vehicle", "Engine", "Car", "Bicycle", "ElectricCar", "DataHolder", "Motorcycle"]) ∧
    (extract testAdvancedDecls).classes.size = 7 ∧
    ¬ "Container" ∈ (extract testAdvancedDecls).classes ∧
    (extract testAdvancedDecls).edges =
      [{ derived := "Car", base := "Vehicle", accessSpecifier := "public" },
       { derived := "Car", base := "Engine", accessSpecifier := "private" },
       { derived := "Bicycle", base := "Vehicle", accessSpecifier := "protected" },
       { derived := "ElectricCar", base := "Car", accessSpecifier := "public" },
       { derived := "Motorcycle", base := "Vehicle", accessSpecifier := "public" }] := by
  have hc : (extract testAdvancedDecls).classes.elems =
      ["Bicycle", "Car", "DataHolder", "ElectricCar", "Engine", "Motorcycle", "Vehicle"] := by
    decide
  refine ⟨?_, ?_, ?_, by decide⟩
  · intro n
    rw [StringSet.mem_iff, hc]
    simp only [List.mem_cons, List.mem_singleton, List.not_mem_nil, or_false]
    tauto
  · unfold StringSet.size
    rw [hc]
    rfl
  · rw [StringSet.mem_iff, hc]
    decide

/-- C6 (access-label mapping): a visit appends its edges to the edge list, and
the appended edges correspond one to one, in order, to the resolvable base
specifiers of the declaration (none when the declaration is not accepted).
The edge emitted for a specifier starts at the declaration, ends at the
name the specifier resolves to, and is labelled by the specifier's own access
value: `public`, `protected` and `private` for the three recognised values,
and `private` for every other value. -/
theorem access_label_mapping (v : InheritanceVisitor) (d : CXXRecordDecl) :
    ∃ emitted, (VisitCXXRecordDecl v d).2.edges = v.edges ++ emitted ∧
      List.Forall₂
        (fun b e =>
          d.getIdentifier = some e.derived ∧ resolvedName b = some e.base ∧
          (b.getAccessSpecifier = AccessSpecifier.AS_public → e.accessSpecifier = "public") ∧
          (b.getAccessSpecifier = AccessSpecifier.AS_protected →
            e.accessSpecifier = "protected") ∧
          (b.getAccessSpecifier = AccessSpecifier.AS_private →
            e.accessSpecifier = "private") ∧
          (b.getAccessSpecifier ≠ AccessSpecifier.AS_public →
            b.getAccessSpecifier ≠ AccessSpecifier.AS_protected →
            b.getAccessSpecifier ≠ AccessSpecifier.AS_private →
            e.accessSpecifier = "private"))
        (if accepted d = true then d.bases.filter fun b => (resolvedName b).isSome else [])
        emitted := by
  refine ⟨specDeclEdges d, VisitCXXRecordDecl_edges v d, ?_⟩
  unfold specDeclEdges
  cases hn : d.getIdentifier with
  | none =>
    have ha : accepted d = false := by simp [accepted, hn]
    simp [ha]
  | some name =>
    cases ha : accepted d with
    | false => simp
    | true =>
      simp only [if_true]
      apply forall2_resolvable_specEdge
      intro b e he
      unfold specEdge at he
      cases hb : resolvedName b with
      | none => simp [hb] at he
      | some bn =>
        simp only [hb, Option.map_some', Option.some.injEq] at he
        subst he
        refine ⟨rfl, rfl, ?_⟩
        cases b.getAccessSpecifier <;> simp [accessSpec]

/-- C7, as stated, fails: with a class template `Box` and an ordinary class
`Box` in one sequence, the final graph has an edge whose derived endpoint is
the name of the templated declaration. -/
theorem template_exclusion_counterexample :
    ¬ (∀ d ∈ shadowedTemplateDecls, describesTemplate d = true →
        ∀ e ∈ (extract shadowedTemplateDecls).edges, some e.derived ≠ d.getIdentifier) := by
  intro h
  exact h (templateDef "Box" [baseOf "Base" AccessSpecifier.AS_public]) (by decide) rfl
    { derived := "Box", base := "Base", accessSpecifier := "public" } (by decide) rfl

/-- C7, amended (template exclusion): a declaration describing a class
template contributes nothing when visited, and when no accepted declaration
of the sequence bears its name, no edge of the final graph has that name as
its derived endpoint. -/
theorem template_exclusion (decls : List CXXRecordDecl) (d : CXXRecordDecl)
    (_hd : d ∈ decls) (ht : describesTemplate d = true)
    (hu : ∀ d1 ∈ decls, accepted d1 = true → d1.getIdentifier ≠ d.getIdentifier) :
    (∀ v, (VisitCXXRecordDecl v d).2 = v) ∧
      ∀ e ∈ (extract decls).edges, some e.derived ≠ d.getIdentifier := by
  constructor
  · intro v
    apply VisitCXXRecordDecl_not_accepted
    unfold describesTemplate at ht
    unfold accepted
    cases h : d.getDescribedClassTemplate with
    | none => simp [h] at ht
    | some t => simp
  · intro e he heq
    rw [extract_edges] at he
    unfold specEdges at he
    obtain ⟨d1, hd1, hed⟩ := List.mem_flatMap.mp he
    obtain ⟨ha, hn, -⟩ := (mem_specDeclEdges d1 e).mp hed
    exact hu d1 hd1 ha (hn.trans heq)

/-- C7, amended, at `test_advanced.cpp`: `Container` describes a class
template, no accepted declaration is named `Container`, and no edge starts
at `Container`. -/
theorem template_exclusion_witness :
    (templateDef "Container" [] ∈ testAdvancedDecls ∧
      describesTemplate (templateDef "Container" []) = true ∧
      ∀ d1 ∈ testAdvancedDecls, accepted d1 = true →
        d1.getIdentifier ≠ (templateDef "Container" []).getIdentifier) ∧
    (∀ v, (VisitCXXRecordDecl v (templateDef "Container" [])).2 = v) ∧
    ∀ e ∈ (extract testAdvancedDecls).edges,
      some e.derived ≠ (templateDef "Container" []).getIdentifier :=
  ⟨⟨by decide, rfl, by decide⟩,
    template_exclusion testAdvancedDecls (templateDef "Container" []) (by decide) rfl
      (by decide)⟩

/-- C8 (the node block is canonical): the node block of the printed text
consists of the node lines of the class names in iteration order; every
member of the class-name set has exactly one node line and a non-member has
none; the names are strictly increasing in lexicographic order; and the block
depends on the membership of the set alone, not on the order of insertion. -/
theorem node_block_canonical (v : InheritanceVisitor) :
    printDOT v = dotHeader ++ printNodes v.classes.elems "" ++ "\n"
        ++ printEdges v.edges "" ++ "\x7d\n" ∧
      printNodes v.classes.elems "" = linesText (v.classes.elems.map nodeLine) ∧
      (∀ n, (v.classes.elems.map nodeLine).count ("    \"" ++ n ++ "\";") =
        if n ∈ v.classes then 1 else 0) ∧
      v.classes.elems.Sorted (fun a b => a < b) ∧
      (∀ w : InheritanceVisitor, (∀ n, n ∈ w.classes ↔ n ∈ v.classes) →
        printNodes w.classes.elems "" = printNodes v.classes.elems "") ∧
      (∀ names1 names2 : List String, names1.Perm names2 →
        printNodes (insertAll names1).elems "" = printNodes (insertAll names2).elems "") := by
  refine ⟨?_, ?_, ?_, v.classes.sorted, ?_, ?_⟩
  · rw [printDOT_eq, printNodes_eq, printEdges_eq, String.empty_append, String.empty_append]
  · rw [printNodes_eq, String.empty_append]
  · intro n
    have hc : (v.classes.elems.map nodeLine).count ("    \"" ++ n ++ "\";") =
        v.classes.elems.count n :=
      List.count_map_of_injective v.classes.elems nodeLine nodeLine_injective n
    rw [hc]
    by_cases hn : n ∈ v.classes
    · rw [if_pos hn]
      exact List.count_eq_one_of_mem v.classes.nodup hn
    · rw [if_neg hn]
      exact List.count_eq_zero.mpr hn
  · intro w hw
    rw [StringSet.ext_mem hw]
  · intro names1 names2 hp
    rw [insertAll_perm names1 names2 hp]

/-- C9 (the edge block is faithful): the edge block of the printed text
consists of one line per edge, the i-th line built from the i-th edge of the
edge list, with the three fields written verbatim between the quotes. -/
theorem edge_block_faithful (v : InheritanceVisitor) :
    printDOT v = dotHeader ++ printNodes v.classes.elems "" ++ "\n"
        ++ printEdges v.edges "" ++ "\x7d\n" ∧
      printEdges v.edges "" = linesText (v.edges.map edgeLine) ∧
      (v.edges.map edgeLine).length = v.edges.length ∧
      ∀ i : Nat, (v.edges.map edgeLine)[i]? =
        (v.edges[i]?).map fun e =>
          "    \"" ++ e.derived ++ "\" -> \"" ++ e.base ++ "\" [label=\""
            ++ e.accessSpecifier ++ "\"];" := by
  refine ⟨?_, ?_, List.length_map _ _, ?_⟩
  · rw [printDOT_eq, printNodes_eq, printEdges_eq, String.empty_append, String.empty_append]
  · rw [printEdges_eq, String.empty_append]
  · intro i
    rw [List.getElem?_map]
    rfl

/-- C10 (visit order affects only the edge sequence): two sequences of
declarations that are permutations of each other yield the same class-name
set, hence the same node block, and edge lists that are permutations of each
other. -/
theorem visit_order_only_edges (decls1 decls2 : List CXXRecordDecl) (h : decls1.Perm decls2) :
    (extract decls1).classes = (extract decls2).classes ∧
      printNodes (extract decls1).classes.elems "" =
        printNodes (extract decls2).classes.elems "" ∧
      (extract decls1).edges.Perm (extract decls2).edges := by
  have hc : (extract decls1).classes = (extract decls2).classes := by
    apply StringSet.ext_mem
    intro n
    rw [extract_mem, extract_mem]
    constructor
    · rintro ⟨d, hd, hn⟩
      exact ⟨d, h.mem_iff.mp hd, hn⟩
    · rintro ⟨d, hd, hn⟩
      exact ⟨d, h.mem_iff.mpr hd, hn⟩
  refine ⟨hc, by rw [hc], ?_⟩
  rw [extract_edges, extract_edges]
  exact List.Perm.flatMap_right specDeclEdges h

/-- C10 at `test.cpp` with `Dog` and `Cat` visited before `Animal`. -/
theorem visit_order_only_edges_witness :
    (classDef "Dog" [baseOf "Animal" AccessSpecifier.AS_public] ::
      classDef "Animal" [] ::
      [classDef "Cat" [baseOf "Animal" AccessSpecifier.AS_private]]).Perm testDecls ∧
    (extract (classDef "Dog" [baseOf "Animal" AccessSpecifier.AS_public] ::
      classDef "Animal" [] ::
      [classDef "Cat" [baseOf "Animal" AccessSpecifier.AS_private]])).classes
        = (extract testDecls).classes ∧
    printNodes (extract (classDef "Dog" [baseOf "Animal" AccessSpecifier.AS_public] ::
      classDef "Animal" [] ::
      [classDef "Cat" [baseOf "Animal" AccessSpecifier.AS_private]])).classes.elems ""
        = printNodes (extract testDecls).classes.elems "" ∧
    (extract (classDef "Dog" [baseOf "Animal" AccessSpecifier.AS_public] ::
      classDef "Animal" [] ::
      [classDef "Cat" [baseOf "Animal" AccessSpecifier.AS_private]])).edges.Perm
        (extract testDecls).edges :=
  ⟨List.Perm.swap _ _ _, visit_order_only_edges _ _ (List.Perm.swap _ _ _)⟩

/-- C11 (scenario A): visiting the declarations of `test.cpp` yields exactly
the three class names `Animal`, `Dog`, `Cat` and exactly the two edges
`Dog -> Animal [public]`, `Cat -> Animal [private]`, in that order. -/
theorem scenario_A :
    (∀ n, n ∈ (extract testDecls).classes ↔ n ∈ ["Animal", "Dog", "Cat"]) ∧
    (extract testDecls).classes.size = 3 ∧
    (extract testDecls).edges =
      [{ derived := "Dog", base := "Animal", accessSpecifier := "public" },
       { derived := "Cat", base := "Animal", accessSpecifier := "private" }] := by
  have hc : (extract testDecls).classes.elems = ["Animal", "Cat", "Dog"] := by decide
  refine ⟨?_, ?_, by decide⟩
  · intro n
    rw [StringSet.mem_iff, hc]
    simp only [List.mem_cons, List.mem_singleton, List.not_mem_nil, or_false]
    tauto
  · unfold StringSet.size
    rw [hc]
    rfl

/-- C12 (idempotence of class registration): inserting a name once or any
further number of times gives the same set, of the same size; and inserting a
name that is present leaves the whole graph as it is. -/
theorem registration_idempotent (v : InheritanceVisitor) (name : String) (k : Nat) :
    Nat.iterate (fun s => StringSet.insert s name) (k + 1) v.classes
        = v.classes.insert name ∧
      (Nat.iterate (fun s => StringSet.insert s name) (k + 1) v.classes).size
        = (v.classes.insert name).size ∧
      (name ∈ v.classes →
        ({ v with classes := v.classes.insert name } : InheritanceVisitor) = v ∧
        (v.classes.insert name).size = v.classes.size) := by
  refine ⟨StringSet.iterate_insert _ _ _, by rw [StringSet.iterate_insert], ?_⟩
  intro h
  rw [StringSet.insert_of_mem _ _ h]
  exact ⟨rfl, rfl⟩

/-- C14 (append-only model): a visit keeps every class name that was in the
set and extends the edge list at its end. -/
theorem append_only (v : InheritanceVisitor) (d : CXXRecordDecl) :
    (∀ n, n ∈ v.classes → n ∈ (VisitCXXRecordDecl v d).2.classes) ∧
      (∃ added, (VisitCXXRecordDecl v d).2.edges = v.edges ++ added) ∧
      (VisitCXXRecordDecl v d).2.edges.take v.edges.length = v.edges := by
  refine ⟨?_, ⟨specDeclEdges d, VisitCXXRecordDecl_edges v d⟩, ?_⟩
  · intro n hn
    exact (VisitCXXRecordDecl_mem v d n).mpr (Or.inl hn)
  · rw [VisitCXXRecordDecl_edges, List.take_left']
    rfl

/-- C15 (the extractor never fails): the callback returns `true` for every
declaration and every graph state, so the traversal runs to its end. -/
theorem visit_never_fails (v : InheritanceVisitor) (d : CXXRecordDecl) :
    (VisitCXXRecordDecl v d).1 = true ∧
      ∀ decls : List CXXRecordDecl, (TraverseDecl v decls).1 = true :=
  ⟨VisitCXXRecordDecl_fst v d, fun decls => TraverseDecl_fst decls v⟩

/-- C17 (access labels are well-formed): every edge of a graph reached from
the empty graph is labelled `public`, `protected` or `private`. -/
theorem access_labels_wellformed (decls : List CXXRecordDecl) (e : InheritanceEdge)
    (he : e ∈ (extract decls).edges) :
    e.accessSpecifier = "public" ∨ e.accessSpecifier = "protected" ∨
      e.accessSpecifier = "private" := by
  rw [extract_edges] at he
  unfold specEdges at he
  obtain ⟨d, -, hed⟩ := List.mem_flatMap.mp he
  obtain ⟨-, -, b, -, -, hacc⟩ := (mem_specDeclEdges d e).mp hed
  rw [hacc]
  exact accessSpec_mem b.getAccessSpecifier

/-- C17 at `test_advanced.cpp`: the edge `Car -> Engine`. -/
theorem access_labels_wellformed_witness :
    ({ derived := "Car", base := "Engine", accessSpecifier := "private" } :
        InheritanceEdge) ∈ (extract testAdvancedDecls).edges ∧
      ("private" = "public" ∨ "private" = "protected" ∨ "private" = "private") :=
  ⟨by decide, access_labels_wellformed testAdvancedDecls
    { derived := "Car", base := "Engine", accessSpecifier := "private" } (by decide)⟩

/-- C13 (output structure in fixed order): the printed text consists of the
three header lines, an empty line, the node lines, an empty line, the edge
lines and the closing line, each ended by a newline; the node lines sit at
positions 4, 5, ... and the edge lines after them, from position
`|classes| + 5` on; there are `|classes| + |edges| + 6` lines, and on a plain
graph this is the number of newline characters of the text. -/
theorem output_structure (v : InheritanceVisitor) :
    printDOT v = linesText
      (["digraph InheritanceGraph \x7b", "    rankdir=BT;",
        "    node [shape=box, style=filled, fillcolor=lightblue];", ""]
        ++ v.classes.elems.map nodeLine ++ [""] ++ v.edges.map edgeLine ++ ["\x7d"]) ∧
      (outputLines v).length = v.classes.size + v.edges.length + 6 ∧
      (∀ i, i < v.classes.size →
        (outputLines v)[4 + i]? = (v.classes.elems[i]?).map nodeLine) ∧
      (∀ j, j < v.edges.length →
        (outputLines v)[v.classes.size + 5 + j]? = (v.edges[j]?).map edgeLine) ∧
      (plainGraph v →
        (printDOT v).data.count newlineChar = v.classes.size + v.edges.length + 6) := by
  refine ⟨printDOT_eq_outputLines v, length_outputLines v, ?_, ?_, ?_⟩
  · intro i hi
    unfold StringSet.size at hi
    unfold outputLines
    rw [List.append_assoc, List.append_assoc, List.append_assoc,
      List.getElem?_append_right (by simp)]
    simp only [List.length_cons, List.length_nil, Nat.add_sub_cancel_left]
    rw [List.getElem?_append_left (by simpa using hi), List.getElem?_map]
  · intro j hj
    unfold outputLines StringSet.size
    rw [List.getElem?_append_left (by simp; omega),
      List.getElem?_append_right (by simp)]
    simp only [List.length_append, List.length_cons, List.length_nil, List.length_map]
    have : v.classes.elems.length + 5 + j - (0 + 1 + 1 + 1 + 1 + v.classes.elems.length + (0 + 1)) = j := by
      omega
    rw [this, List.getElem?_map]
  · intro hv
    rw [printDOT_eq_outputLines, count_newline_linesText _ (outputLines_no_newline v hv),
      length_outputLines]

/-- C19 (the rendering loses no information on plain names): two plain graphs
with the same printed text have the same class-name set and the same edge
list. -/
theorem printDOT_injective (v w : InheritanceVisitor) (hv : plainGraph v) (hw : plainGraph w)
    (h : printDOT v = printDOT w) : v.classes = w.classes ∧ v.edges = w.edges := by
  have hvw : v = w :=
    printDOT_determines_graph v w (fun n hn => (hv.1 n hn).1)
      (fun e he => ⟨(hv.2 e he).1.1, (hv.2 e he).2.1.1, (hv.2 e he).2.2.1⟩)
      (fun n hn => (hw.1 n hn).1)
      (fun e he => ⟨(hw.2 e he).1.1, (hw.2 e he).2.1.1, (hw.2 e he).2.2.1⟩) h
  rw [hvw]
  exact ⟨rfl, rfl⟩

/-- C19 at `test.cpp`, visited as it is and visited after a class template
that is skipped. -/
theorem printDOT_injective_witness :
    (plainGraph (extract testDecls) ∧ plainGraph (extract (templateDef "Box" [] :: testDecls)) ∧
      printDOT (extract testDecls) = printDOT (extract (templateDef "Box" [] :: testDecls))) ∧
    (extract testDecls).classes = (extract (templateDef "Box" [] :: testDecls)).classes ∧
    (extract testDecls).edges = (extract (templateDef "Box" [] :: testDecls)).edges :=
  ⟨⟨by decide, by decide, rfl⟩,
    printDOT_injective (extract testDecls) (extract (templateDef "Box" [] :: testDecls))
      (by decide) (by decide) rfl⟩

end CodeAnalyzer
